import Mathlib

/-!
Verification development for the secure-ledger core of the
Decentralized Smart Traffic IoT System repository
(`src/backend.py` and the dispatch/mining handlers of `src/app.py`).

The Python code is shallowly embedded:
* Python dicts/values that flow into `json.dumps` are modelled by `PyVal`.
* `json.dumps(obj, sort_keys=True)` composed with `hashlib.sha256(...).hexdigest()`
  is modelled by `canon` (the recursive key-sorting that `sort_keys=True`
  performs) followed by an arbitrary digest function `H : PyVal → String`
  standing for the serializer plus SHA-256; every theorem quantifies over `H`.
* `datetime.utcnow().isoformat()` and `os.urandom(12)` are nondeterministic
  inputs and are passed as explicit parameters.
* `AESGCM.encrypt/decrypt` and `json.dumps/loads` inside `AESCipher` are
  third-party primitives; they are passed as function parameters and the
  claims about them are stated relative to their documented contracts.
* hexadecimal encoding (`bytes.hex()` / `bytes.fromhex()`) is implemented
  concretely (lowercase output; upper- and lowercase accepted on input;
  `bytes.fromhex`'s tolerance for whitespace is not modelled, no claim
  depends on it).
-/

/-- Python values as they appear in the payloads hashed or serialized by the
repository: strings, ints, bools, `None`, lists and (insertion-ordered)
dicts. -/
inductive PyVal where
  | str (s : String)
  | int (n : Int)
  | bool (b : Bool)
  | null
  | list (l : List PyVal)
  | dict (l : List (String × PyVal))

/-- Strict lexicographic order on char lists by code point, as Python compares
`str` keys in `sorted`/`sort_keys`. -/
def strLtB : List Char → List Char → Bool
  | [], [] => false
  | [], _ :: _ => true
  | _ :: _, [] => false
  | a :: as, b :: bs =>
    if a.toNat < b.toNat then true
    else if b.toNat < a.toNat then false
    else strLtB as bs

/-- `a ≤ b` on strings by code point. -/
def keyLe (a b : String) : Bool := !(strLtB b.data a.data)

/-- Insert a key-value pair into a key-sorted association list. -/
def insertByKey (p : String × PyVal) : List (String × PyVal) → List (String × PyVal)
  | [] => [p]
  | q :: rest => if keyLe p.1 q.1 then p :: q :: rest else q :: insertByKey p rest

/-- Insertion sort of an association list by key, modelling the key ordering
`json.dumps(..., sort_keys=True)` applies to every dict. -/
def sortByKey : List (String × PyVal) → List (String × PyVal)
  | [] => []
  | p :: rest => insertByKey p (sortByKey rest)

/-- Insert a string into a sorted list of strings (key-only mirror of
`insertByKey`). -/
def insertStr (s : String) : List String → List String
  | [] => [s]
  | q :: rest => if keyLe s q then s :: q :: rest else q :: insertStr s rest

/-- Insertion sort on strings (key-only mirror of `sortByKey`). -/
def sortStr : List String → List String
  | [] => []
  | s :: rest => insertStr s (sortStr rest)

mutual

/-- Canonical form of a `PyVal` under `json.dumps(..., sort_keys=True)`:
every dict's entries are recursively sorted by key. -/
def canon : PyVal → PyVal
  | .str s => .str s
  | .int n => .int n
  | .bool b => .bool b
  | .null => .null
  | .list l => .list (canonList l)
  | .dict l => .dict (sortByKey (canonEntries l))

/-- `canon` mapped over a list. -/
def canonList : List PyVal → List PyVal
  | [] => []
  | v :: rest => canon v :: canonList rest

/-- `canon` mapped over dict entries. -/
def canonEntries : List (String × PyVal) → List (String × PyVal)
  | [] => []
  | (k, v) :: rest => (k, canon v) :: canonEntries rest

end

/-- Top-level keys of a `PyVal` dict. -/
def pyKeys : PyVal → List String
  | .dict l => l.map Prod.fst
  | _ => []

/-- The transaction dict built by the `Encrypt & Save Transaction` handler in
`src/app.py`: `{"nonce": ..., "ciphertext": ..., "driver_response": ...,
"vehicle": ..., "exit_point": ...}`. -/
structure Tx where
  nonce : String
  ciphertext : String
  driver_response : String
  vehicle : Option String
  exit_point : Option String
deriving DecidableEq

/-- `Option String → PyVal` for the metadata fields that may be `None`. -/
def optStrToPy : Option String → PyVal
  | some s => .str s
  | none => .null

/-- A transaction dict as a `PyVal`, in the insertion order used by
`src/app.py`. -/
def txToPy (t : Tx) : PyVal :=
  .dict [("nonce", .str t.nonce), ("ciphertext", .str t.ciphertext),
         ("driver_response", .str t.driver_response),
         ("vehicle", optStrToPy t.vehicle), ("exit_point", optStrToPy t.exit_point)]

/-- The two shapes of `Block.data` that occur in the program: the genesis
marker dict `{"msg": "Genesis Block"}` (from `Blockchain.create_genesis`)
and a list of transaction dicts (from `Blockchain.mine`). -/
inductive BlockData where
  | genesisMarker
  | txs (l : List Tx)
deriving DecidableEq

/-- `Block.data` as a `PyVal`. -/
def dataToPy : BlockData → PyVal
  | .genesisMarker => .dict [("msg", .str "Genesis Block")]
  | .txs l => .list (l.map txToPy)

/-- A `Block` (class `Block` in `src/backend.py`): the five stored fields. -/
structure Block where
  index : Nat
  timestamp : String
  data : BlockData
  prev_hash : String
  hash : String
deriving DecidableEq

/-- The value of `self.__dict__` at the point inside `Block.__init__` where
`compute_hash` is called: the four fields assigned so far, in assignment
order, with no `hash` entry yet. -/
def initDict (index : Nat) (timestamp : String) (data : PyVal) (prev_hash : String) : PyVal :=
  .dict [("index", .int index), ("timestamp", .str timestamp),
         ("data", data), ("prev_hash", .str prev_hash)]

/-- The value of `self.__dict__` after `Block.__init__` has finished: all
five fields including the stored `hash`. -/
def fullDict (b : Block) : PyVal :=
  .dict [("index", .int b.index), ("timestamp", .str b.timestamp),
         ("data", dataToPy b.data), ("prev_hash", .str b.prev_hash),
         ("hash", .str b.hash)]

/-- `Block.__init__`: store the four fields and set `hash` to the digest of
the canonical encoding of `self.__dict__` as it stands at that moment
(`hash` not yet assigned, hence excluded). `H` models
`sha256(json.dumps(·, sort_keys=True, default=str)).hexdigest()`. -/
def mkBlock (H : PyVal → String) (index : Nat) (timestamp : String)
    (data : BlockData) (prev_hash : String) : Block :=
  { index := index, timestamp := timestamp, data := data, prev_hash := prev_hash,
    hash := H (canon (initDict index timestamp (dataToPy data) prev_hash)) }

/-- Recompute a block's digest from its four stored content fields (the
encoding that produced the stored `hash` at construction time). -/
def recomputeHash (H : PyVal → String) (b : Block) : String :=
  H (canon (initDict b.index b.timestamp (dataToPy b.data) b.prev_hash))

/-- `Block.compute_hash` invoked again on the finished object: now
`self.__dict__` also holds the stored `hash`, so the digest is taken over
all five fields. -/
def computeHashPost (H : PyVal → String) (b : Block) : String :=
  H (canon (fullDict b))

/-- Replace a block's `data` field in place (`blk.data = d` in Python); the
stored `hash` is untouched. -/
def setData (b : Block) (d : BlockData) : Block := { b with data := d }

/-- Class `Blockchain` of `src/backend.py`: the chain and the pending pool
(`current_tx`). -/
structure Blockchain where
  chain : List Block
  current_tx : List Tx
deriving DecidableEq

/-- `Blockchain.create_genesis`: the genesis block with the fixed marker
payload and sentinel `prev_hash = "0"`. -/
def genesisBlock (H : PyVal → String) (ts : String) : Block :=
  mkBlock H 0 ts .genesisMarker "0"

/-- `Blockchain.__init__`: empty pool, then `create_genesis` appends the
genesis block. -/
def Blockchain.init (H : PyVal → String) (ts : String) : Blockchain :=
  { chain := [genesisBlock H ts], current_tx := [] }

/-- `Blockchain.add_tx`: unconditionally append `tx` to `current_tx`. -/
def Blockchain.add_tx (bc : Blockchain) (tx : Tx) : Blockchain :=
  { bc with current_tx := bc.current_tx ++ [tx] }

/-- `Blockchain.mine`: read `chain[-1]` (`none` models the `IndexError` on an
empty chain, which never occurs after `__init__`), build a block from a copy
of the pool, append it, clear the pool, return the new state and block. -/
def Blockchain.mine (H : PyVal → String) (ts : String) (bc : Blockchain) :
    Option (Blockchain × Block) :=
  match bc.chain.getLast? with
  | none => none
  | some prev =>
    let nb := mkBlock H (prev.index + 1) ts (.txs bc.current_tx) prev.hash
    some ({ chain := bc.chain ++ [nb], current_tx := [] }, nb)

/-- The composed application state held in `st.session_state` of
`src/app.py`: the singleton `Blockchain` and the `rejected_cases`
quarantine list. -/
structure AppState where
  bc : Blockchain
  rejected_cases : List Tx
deriving DecidableEq

/-- The `Encrypt & Save Transaction` dispatch of `src/app.py` (lines
203-212): a transaction whose `driver_response` is `"REJECTED"` goes only to
`rejected_cases`; every other transaction goes to the pending pool via
`add_tx`. -/
def saveTx (s : AppState) (tx : Tx) : AppState :=
  if tx.driver_response = "REJECTED" then
    { s with rejected_cases := s.rejected_cases ++ [tx] }
  else
    { s with bc := s.bc.add_tx tx }

/-- The `Mine Block` button handler of `src/app.py` (lines 214-219): if the
pool is empty, only warn and leave the state unchanged; otherwise call
`Blockchain.mine`. -/
def mineStep (H : PyVal → String) (ts : String) (s : AppState) : AppState :=
  if s.bc.current_tx = [] then s
  else
    match Blockchain.mine H ts s.bc with
    | some (bc2, _) => { s with bc := bc2 }
    | none => s

/-- States of the composed system reachable from startup: the session starts
with a fresh `Blockchain` and an empty `rejected_cases` list, and evolves
only through the save-transaction dispatch and the mine handler. -/
inductive Reachable (H : PyVal → String) : AppState → Prop where
  | init (ts : String) : Reachable H ⟨Blockchain.init H ts, []⟩
  | save (s : AppState) (tx : Tx) : Reachable H s → Reachable H (saveTx s tx)
  | mine (s : AppState) (ts : String) : Reachable H s → Reachable H (mineStep H ts s)

/-- Modelled from the spec: `verifyChain()` is absent from `src/backend.py`
(no method of class `Blockchain` recomputes or checks hashes); §4.4 of the
spec describes it as "for every index i>0, recompute each block's hash from
its stored fields and confirm it matches the stored hash and that
`prev_hash` matches the predecessor's stored hash; returns success or the
first offending index". Helper: scan the blocks after genesis, carrying the
index `i` and the predecessor. -/
def firstBad (H : PyVal → String) : Nat → Block → List Block → Option Nat
  | _, _, [] => none
  | i, prev, b :: rest =>
    if b.hash ≠ recomputeHash H b ∨ b.prev_hash ≠ prev.hash then some i
    else firstBad H (i + 1) b rest

/-- Modelled from the spec: `verifyChain()` (absent from `src/backend.py`),
returning `none` for success and `some i` for the first offending index
`i > 0`. -/
def Blockchain.verifyChain (H : PyVal → String) (bc : Blockchain) : Option Nat :=
  match bc.chain with
  | [] => none
  | g :: rest => firstBad H 1 g rest

/-! ## Hexadecimal codec (`bytes.hex()` / `bytes.fromhex()`)

Bytes are `List Nat` with every element `< 256`. -/

/-- Lowercase hex digit for `n < 16` (`'0'..'9'`, `'a'..'f'`). -/
def hexDigitChar (n : Nat) : Char :=
  if n < 10 then Char.ofNat (48 + n) else Char.ofNat (87 + n)

/-- `bytes.hex()`: two lowercase hex chars per byte, in order. -/
def bytesToHex : List Nat → List Char
  | [] => []
  | b :: rest => hexDigitChar (b / 16) :: hexDigitChar (b % 16) :: bytesToHex rest

/-- Value of a hex digit char, accepting both cases; `none` on a non-hex
char. -/
def hexVal (c : Char) : Option Nat :=
  if 48 ≤ c.toNat ∧ c.toNat ≤ 57 then some (c.toNat - 48)
  else if 97 ≤ c.toNat ∧ c.toNat ≤ 102 then some (c.toNat - 87)
  else if 65 ≤ c.toNat ∧ c.toNat ≤ 70 then some (c.toNat - 55)
  else none

/-- `bytes.fromhex()`: parse pairs of hex digits; `none` models the
`ValueError` on a malformed (odd-length or non-hex) string. -/
def hexToBytes : List Char → Option (List Nat)
  | [] => some []
  | [_] => none
  | c1 :: c2 :: rest =>
    match hexVal c1, hexVal c2, hexToBytes rest with
    | some h, some lo, some bs => some ((16 * h + lo) :: bs)
    | _, _, _ => none

/-! ## AESCipher (`src/backend.py`, class `AESCipher`) -/

/-- The error taxonomy of `AESCipher.decrypt`: `decodeError` models the
`ValueError` raised by `bytes.fromhex` (and by deserialization), and
`authenticationError` models `cryptography`'s `InvalidTag` — a single
constructor with no payload, so every tag-verification failure (wrong key,
tampered nonce, tampered ciphertext) surfaces as the identical value. -/
inductive CipherErr where
  | decodeError
  | authenticationError
deriving DecidableEq

/-- `AESCipher.encrypt`: serialize the record (`dumps` models
`json.dumps(·).encode("utf-8")`), encrypt it under the key with the fresh
nonce (`aeadEnc` models `AESGCM.encrypt` with associated data `None`), and
hex-encode both nonce and ciphertext. The random nonce is an explicit
parameter. -/
def cipherEncrypt {Rec : Type} (aeadEnc : List Nat → List Nat → List Nat → List Nat)
    (dumps : Rec → List Nat) (key nonce : List Nat) (record : Rec) : String × String :=
  (String.mk (bytesToHex nonce),
   String.mk (bytesToHex (aeadEnc key nonce (dumps record))))

/-- `AESCipher.decrypt`: hex-decode the nonce, then the ciphertext, then
authenticated-decrypt (`aeadDec` models `AESGCM.decrypt`, `none` = tag
failure), then deserialize (`loads` models
`json.loads(·.decode("utf-8"))`). -/
def cipherDecrypt {Rec : Type} (aeadDec : List Nat → List Nat → List Nat → Option (List Nat))
    (loads : List Nat → Option Rec) (key : List Nat) (nonceHex ctHex : String) :
    Except CipherErr Rec :=
  match hexToBytes nonceHex.data with
  | none => .error .decodeError
  | some n =>
    match hexToBytes ctHex.data with
    | none => .error .decodeError
    | some c =>
      match aeadDec key n c with
      | none => .error .authenticationError
      | some pt =>
        match loads pt with
        | none => .error .decodeError
        | some r => .ok r

/-- Flip bit `k` (0-based, `k < 8`) of the byte at position `j`. -/
def flipBit : Nat → Nat → List Nat → List Nat
  | _, _, [] => []
  | 0, k, b :: rest => (b ^^^ 2 ^ k) :: rest
  | j + 1, k, b :: rest => b :: flipBit j k rest

/-- The hardcoded demo fallback key of `AESCipher.__init__`
(`src/backend.py` lines 31-33). -/
def fallbackKeyHex : String :=
  "00112233445566778899AABBCCDDEEFF00112233445566778899AABBCCDDEEFF"

/-- The fallback key's bytes. -/
def fallbackKeyBytes : List Nat :=
  [0x00, 0x11, 0x22, 0x33, 0x44, 0x55, 0x66, 0x77,
   0x88, 0x99, 0xAA, 0xBB, 0xCC, 0xDD, 0xEE, 0xFF,
   0x00, 0x11, 0x22, 0x33, 0x44, 0x55, 0x66, 0x77,
   0x88, 0x99, 0xAA, 0xBB, 0xCC, 0xDD, 0xEE, 0xFF]

/-- `AESCipher.__init__` given the value of the `POLICE_KEY_HEX` environment
variable (`none` when unset). An unset or empty variable is falsy in
Python, so the hardcoded fallback hex is used; `none` as a result models
the `ValueError` raised for malformed hex or a key that is not 32 bytes. -/
def cipherInit (env : Option String) : Option (List Nat) :=
  let hexStr : String :=
    match env with
    | some h => if h.data = [] then fallbackKeyHex else h
    | none => fallbackKeyHex
  match hexToBytes hexStr.data with
  | none => none
  | some key => if key.length = 32 then some key else none

/-! ## Invariant predicates -/

/-- No transaction in the list is REJECTED. -/
def noRejTx (l : List Tx) : Prop := ∀ t ∈ l, t.driver_response ≠ "REJECTED"

/-- A block whose data is a transaction list contains no REJECTED
transaction (vacuous for the genesis marker). -/
def blockClean (b : Block) : Prop :=
  ∀ l, b.data = BlockData.txs l → noRejTx l

/-- The blocks of `l`, with predecessor `prev`, are hash-correct and
hash-linked: each block's stored hash is the digest of its four content
fields, and its `prev_hash` is its predecessor's stored hash. -/
def chainOk (H : PyVal → String) : Block → List Block → Prop
  | _, [] => True
  | prev, b :: rest =>
    b.hash = recomputeHash H b ∧ b.prev_hash = prev.hash ∧ chainOk H b rest

/-- Last element of `prev :: l`. -/
def lastOf (prev : Block) : List Block → Block
  | [] => prev
  | b :: rest => lastOf b rest

/-- The inductive invariant of the composed system: the chain is nonempty
with a hash-linked tail, every committed block is clean, and the pending
pool is clean. -/
def GoodState (H : PyVal → String) (s : AppState) : Prop :=
  (∃ g rest, s.bc.chain = g :: rest ∧ chainOk H g rest) ∧
  (∀ b ∈ s.bc.chain, blockClean b) ∧
  noRejTx s.bc.current_tx

/-! ## Concrete instances used by witnesses and counterexamples -/

/-- A trivial digest function (collapses everything). -/
def H0 : PyVal → String := fun _ => ""

/-- A digest that exposes the number of entries of a top-level dict, enough
to separate the four-field construction encoding from the five-field
post-construction encoding. -/
def Hlen : PyVal → String
  | .dict l => String.mk (List.replicate l.length 'a')
  | _ => ""

/-- A digest that exposes the length of a `data` list sitting first in a
canonically sorted block dict, enough to detect a concrete data mutation. -/
def Hw : PyVal → String
  | .dict ((_, .list l) :: _) => String.mk (List.replicate l.length 'x')
  | _ => ""

/-- A concrete REJECTED transaction. -/
def rejTx : Tx :=
  { nonce := "aa", ciphertext := "bb", driver_response := "REJECTED",
    vehicle := some "KA-01", exit_point := some "E2" }

/-- A concrete CONFIRMED transaction. -/
def txC : Tx :=
  { nonce := "cc", ciphertext := "dd", driver_response := "CONFIRMED",
    vehicle := some "KA-02", exit_point := some "E3" }

/-- Initial app state over `H0`. -/
def s0val : AppState := ⟨Blockchain.init H0 "t0", []⟩

/-- A ledger over `H0` with one pending transaction. -/
def bcW : Blockchain := (Blockchain.init H0 "t0").add_tx txC

/-- The genesis block of `bcW`. -/
def gW : Block := genesisBlock H0 "t0"

/-- Initial app state over `Hw`. -/
def s0w : AppState := ⟨Blockchain.init Hw "t0", []⟩

/-- App state over `Hw` after dispatching `txC` and mining once: a
two-block chain. -/
def s1w : AppState := mineStep Hw "t1" (saveTx s0w txC)

/-- The mined (second) block of `s1w`. -/
def blk1w : Block := mkBlock Hw 1 "t1" (BlockData.txs [txC]) (genesisBlock Hw "t0").hash

/-! # Helper lemmas -/

theorem map_fst_insertByKey (p : String × PyVal) (l : List (String × PyVal)) :
    (insertByKey p l).map Prod.fst = insertStr p.1 (l.map Prod.fst) := by
  induction l with
  | nil => rfl
  | cons q rest ih =>
    cases hk : keyLe p.1 q.1 with
    | true => simp [insertByKey, insertStr, hk]
    | false => simp [insertByKey, insertStr, hk, ih]

theorem map_fst_sortByKey (l : List (String × PyVal)) :
    (sortByKey l).map Prod.fst = sortStr (l.map Prod.fst) := by
  induction l with
  | nil => rfl
  | cons p rest ih => simp [sortByKey, sortStr, map_fst_insertByKey, ih]

theorem map_fst_canonEntries (l : List (String × PyVal)) :
    (canonEntries l).map Prod.fst = l.map Prod.fst := by
  induction l with
  | nil => rfl
  | cons p rest ih =>
    cases p
    simp [canonEntries, ih]

theorem pyKeys_canon_dict (l : List (String × PyVal)) :
    pyKeys (canon (PyVal.dict l)) = sortStr (l.map Prod.fst) := by
  simp [canon, pyKeys, map_fst_sortByKey, map_fst_canonEntries]

theorem hexVal_hexDigitChar : ∀ d, d < 16 → hexVal (hexDigitChar d) = some d := by decide

theorem hexToBytes_bytesToHex (bs : List Nat) (h : ∀ b ∈ bs, b < 256) :
    hexToBytes (bytesToHex bs) = some bs := by
  induction bs with
  | nil => rfl
  | cons b rest ih =>
    have hb : b < 256 := h b (by simp)
    have h1 : hexVal (hexDigitChar (b / 16)) = some (b / 16) :=
      hexVal_hexDigitChar _ (by omega)
    have h2 : hexVal (hexDigitChar (b % 16)) = some (b % 16) :=
      hexVal_hexDigitChar _ (by omega)
    have h3 : hexToBytes (bytesToHex rest) = some rest :=
      ih (fun x hx => h x (by simp [hx]))
    have h4 : 16 * (b / 16) + b % 16 = b := Nat.div_add_mod b 16
    simp [bytesToHex, hexToBytes, h1, h2, h3, h4]

theorem mkBlock_hash_correct (H : PyVal → String) (i : Nat) (ts : String)
    (d : BlockData) (ph : String) :
    (mkBlock H i ts d ph).hash = recomputeHash H (mkBlock H i ts d ph) := rfl

theorem firstBad_none (H : PyVal → String) (i : Nat) (prev : Block) (l : List Block)
    (h : chainOk H prev l) : firstBad H i prev l = none := by
  induction l generalizing i prev with
  | nil => rfl
  | cons b rest ih =>
    obtain ⟨h1, h2, h3⟩ := h
    rw [firstBad, if_neg (by simp [h1, h2])]
    exact ih _ _ h3

theorem chainOk_append (H : PyVal → String) (prev : Block) (l : List Block) (nb : Block)
    (hok : chainOk H prev l) (hh : nb.hash = recomputeHash H nb)
    (hp : nb.prev_hash = (lastOf prev l).hash) :
    chainOk H prev (l ++ [nb]) := by
  induction l generalizing prev with
  | nil => exact ⟨hh, hp, trivial⟩
  | cons b rest ih =>
    obtain ⟨h1, h2, h3⟩ := hok
    exact ⟨h1, h2, ih b h3 hp⟩

theorem getLast?_eq_lastOf (g : Block) (l : List Block) :
    (g :: l).getLast? = some (lastOf g l) := by
  induction l generalizing g with
  | nil => rfl
  | cons b rest ih =>
    rw [List.getLast?_cons_cons]
    exact ih b

theorem firstBad_set (H : PyVal → String) (l : List Block) :
    ∀ (k i : Nat) (prev b : Block) (d : BlockData),
      l.get? k = some b → chainOk H prev l →
      b.hash ≠ recomputeHash H (setData b d) →
      firstBad H i prev (l.set k (setData b d)) = some (i + k) := by
  induction l with
  | nil => intro k i prev b d hget _ _; simp at hget
  | cons x rest ih =>
    intro k i prev b d hget hok hbad
    cases k with
    | zero =>
      have hxb : x = b := by simpa using hget
      subst hxb
      have hbad2 : (setData x d).hash ≠ recomputeHash H (setData x d) := hbad
      show firstBad H i prev (setData x d :: rest) = some (i + 0)
      rw [Nat.add_zero, firstBad, if_pos (Or.inl hbad2)]
    | succ k2 =>
      have hget2 : rest.get? k2 = some b := by simpa using hget
      obtain ⟨h1, h2, h3⟩ := hok
      have ihh := ih k2 (i + 1) x b d hget2 h3 hbad
      show firstBad H i prev (x :: rest.set k2 (setData b d)) = some (i + (k2 + 1))
      rw [firstBad, if_neg (by simp [h1, h2]), ihh]
      congr 1
      omega

theorem reachable_good (H : PyVal → String) (s : AppState) (h : Reachable H s) :
    GoodState H s := by
  induction h with
  | init ts =>
    refine ⟨⟨genesisBlock H ts, [], rfl, trivial⟩, ?_, ?_⟩
    · intro b hb l hl
      simp [Blockchain.init] at hb
      subst hb
      simp [genesisBlock, mkBlock] at hl
    · intro t ht
      simp [Blockchain.init] at ht
  | save s tx _ ih =>
    obtain ⟨hchain, hclean, hpool⟩ := ih
    by_cases hr : tx.driver_response = "REJECTED"
    · exact ⟨by simpa [saveTx, hr] using hchain, by simpa [saveTx, hr] using hclean,
        by simpa [saveTx, hr] using hpool⟩
    · refine ⟨by simpa [saveTx, hr, Blockchain.add_tx] using hchain,
        by simpa [saveTx, hr, Blockchain.add_tx] using hclean, ?_⟩
      intro t ht
      simp [saveTx, hr, Blockchain.add_tx] at ht
      rcases ht with ht | rfl
      · exact hpool t ht
      · exact hr
  | mine s ts _ ih =>
    obtain ⟨⟨g, rest, hchain, hok⟩, hclean, hpool⟩ := ih
    by_cases hempty : s.bc.current_tx = []
    · exact ⟨⟨g, rest, by simpa [mineStep, hempty] using hchain,
        by simpa [mineStep, hempty] using hok⟩,
        by simpa [mineStep, hempty] using hclean,
        by simpa [mineStep, hempty] using hpool⟩
    · have hlast : s.bc.chain.getLast? = some (lastOf g rest) := by
        rw [hchain]; exact getLast?_eq_lastOf g rest
      have hstep : mineStep H ts s =
          { s with bc :=
            { chain := s.bc.chain ++
                [mkBlock H ((lastOf g rest).index + 1) ts
                  (BlockData.txs s.bc.current_tx) (lastOf g rest).hash],
              current_tx := [] } } := by
        simp [mineStep, hempty, Blockchain.mine, hlast]
      rw [hstep]
      refine ⟨⟨g, rest ++ [mkBlock H ((lastOf g rest).index + 1) ts
          (BlockData.txs s.bc.current_tx) (lastOf g rest).hash], ?_, ?_⟩, ?_, ?_⟩
      · simp [hchain]
      · exact chainOk_append H g rest _ hok rfl rfl
      · intro b hb
        simp [hchain] at hb
        rcases hb with hb | hb | rfl
        · exact hclean b (by simp [hchain, hb])
        · exact hclean b (by simp [hchain, hb])
        · intro l hl
          simp [mkBlock] at hl
          subst hl
          exact hpool
      · intro t ht
        simp at ht

theorem xor_two_pow_ne (b k : Nat) : b ^^^ 2 ^ k ≠ b := by
  intro h
  have h0 : b ^^^ 2 ^ k = b ^^^ 0 := by rw [Nat.xor_zero]; exact h
  have h2 : 2 ^ k = 0 := Nat.xor_right_inj.mp h0
  exact (Nat.two_pow_pos k).ne' h2

theorem xor_lt_256 (a b : Nat) (ha : a < 256) (hb : b < 256) : a ^^^ b < 256 := by
  have h28 : (256 : Nat) = 2 ^ 8 := by norm_num
  rw [h28] at ha hb ⊢
  exact Nat.bitwise_lt ha hb

theorem flipBit_ne (j k : Nat) (bs : List Nat) (hj : j < bs.length) :
    flipBit j k bs ≠ bs := by
  induction bs generalizing j with
  | nil => simp at hj
  | cons b rest ih =>
    cases j with
    | zero =>
      intro h
      simp only [flipBit] at h
      injection h with h1 _
      exact xor_two_pow_ne b k h1
    | succ j2 =>
      intro h
      simp only [flipBit] at h
      injection h with _ h2
      exact ih j2 (by simpa using hj) h2

theorem flipBit_valid (j k : Nat) (bs : List Nat) (hk : k < 8)
    (h : ∀ b ∈ bs, b < 256) : ∀ b ∈ flipBit j k bs, b < 256 := by
  induction bs generalizing j with
  | nil => simp [flipBit]
  | cons b rest ih =>
    cases j with
    | zero =>
      intro x hx
      simp only [flipBit, List.mem_cons] at hx
      rcases hx with rfl | hx
      · have hb : b < 256 := h b (by simp)
        have h2k : 2 ^ k < 256 := by
          have : 2 ^ k ≤ 2 ^ 7 := Nat.pow_le_pow_right (by omega) (by omega)
          omega
        exact xor_lt_256 b (2 ^ k) hb h2k
      · exact h x (by simp [hx])
    | succ j2 =>
      intro x hx
      simp only [flipBit, List.mem_cons] at hx
      rcases hx with rfl | hx
      · exact h x (by simp)
      · exact ih j2 (fun y hy => h y (by simp [hy])) x hx

/-! # Claim theorems -/

/-- Claim C1: in every reachable state of the composed system (transactions
dispatched by the `Encrypt & Save Transaction` step, blocks produced only by
the mine handler), no block in the chain contains a transaction whose
`driver_response` is `"REJECTED"`, the pending pool contains none either,
and dispatching a REJECTED transaction places it only in the
`rejected_cases` quarantine registry, leaving the ledger untouched. -/
theorem no_rejected_on_chain (H : PyVal → String) (s : AppState)
    (hreach : Reachable H s) :
    (∀ b ∈ s.bc.chain, ∀ l, b.data = BlockData.txs l →
        ∀ t ∈ l, t.driver_response ≠ "REJECTED")
    ∧ (∀ t ∈ s.bc.current_tx, t.driver_response ≠ "REJECTED")
    ∧ (∀ tx : Tx, tx.driver_response = "REJECTED" →
        saveTx s tx = { s with rejected_cases := s.rejected_cases ++ [tx] }) := by
  obtain ⟨_, hclean, hpool⟩ := reachable_good H s hreach
  exact ⟨fun b hb l hl => hclean b hb l hl, hpool,
    fun tx hr => by simp [saveTx, hr]⟩

/-- Witness for C1 at the initial state and a concrete REJECTED
transaction. -/
theorem no_rejected_on_chain_witness :
    saveTx s0val rejTx = { s0val with rejected_cases := s0val.rejected_cases ++ [rejTx] } :=
  (no_rejected_on_chain H0 s0val (Reachable.init "t0")).2.2 rejTx rfl

/-- Claim C2: on a ledger with a nonempty pending pool (and its always
nonempty chain), `mine` returns the new state and block, where the block's
index is the previous head's index plus one, its `prev_hash` is the previous
head's stored hash, its data is exactly the pending transactions in
insertion order, the chain grows by exactly one block, and the pool is
emptied. -/
theorem mine_correct (H : PyVal → String) (ts : String) (bc : Blockchain) (prev : Block)
    (hlast : bc.chain.getLast? = some prev) (_hne : bc.current_tx ≠ []) :
    Blockchain.mine H ts bc =
      some ({ chain := bc.chain ++
                [mkBlock H (prev.index + 1) ts (BlockData.txs bc.current_tx) prev.hash],
              current_tx := [] },
            mkBlock H (prev.index + 1) ts (BlockData.txs bc.current_tx) prev.hash)
    ∧ (mkBlock H (prev.index + 1) ts (BlockData.txs bc.current_tx) prev.hash).index
        = prev.index + 1
    ∧ (mkBlock H (prev.index + 1) ts (BlockData.txs bc.current_tx) prev.hash).prev_hash
        = prev.hash
    ∧ (mkBlock H (prev.index + 1) ts (BlockData.txs bc.current_tx) prev.hash).data
        = BlockData.txs bc.current_tx
    ∧ (bc.chain ++
        [mkBlock H (prev.index + 1) ts (BlockData.txs bc.current_tx) prev.hash]).length
        = bc.chain.length + 1 := by
  refine ⟨?_, rfl, rfl, rfl, by simp⟩
  simp [Blockchain.mine, hlast]

/-- Witness for C2 on a concrete one-transaction pool. -/
theorem mine_correct_witness :
    Blockchain.mine H0 "t1" bcW =
      some ({ chain := bcW.chain ++
                [mkBlock H0 (gW.index + 1) "t1" (BlockData.txs bcW.current_tx) gW.hash],
              current_tx := [] },
            mkBlock H0 (gW.index + 1) "t1" (BlockData.txs bcW.current_tx) gW.hash) :=
  (mine_correct H0 "t1" bcW gW (by decide) (by decide)).1

/-- Counterexample for C5: `add_tx` accepts a REJECTED transaction — it lands
in the pending pool instead of an `InvariantViolation` being raised (no such
check exists in `Blockchain.add_tx`). -/
theorem add_tx_rejected_cex :
    (Blockchain.add_tx (Blockchain.init H0 "t0") rejTx).current_tx = [rejTx]
    ∧ rejTx.driver_response = "REJECTED" := by decide

/-- Amended C5: `add_tx` appends every transaction to the pending pool
unconditionally (REJECTED included) and never raises; the chain is
unchanged. -/
theorem add_tx_unconditional (bc : Blockchain) (tx : Tx) :
    (bc.add_tx tx).current_tx = bc.current_tx ++ [tx]
    ∧ (bc.add_tx tx).chain = bc.chain :=
  ⟨rfl, rfl⟩

/-- Counterexample for C6: `mine` on an empty pending pool does not raise —
it returns a block whose data is the empty list and grows the chain to
length 2. -/
theorem mine_on_empty_cex :
    (Blockchain.mine H0 "t1" (Blockchain.init H0 "t0")).map
      (fun p => (p.1.chain.length, p.2.data)) = some (2, BlockData.txs []) := by
  decide

/-- Amended C6: `mine` itself performs no empty-pool check — on an empty pool
it appends a block whose data is the empty transaction list; the empty-pool
guard lives in the `Mine Block` handler of `src/app.py`, which skips mining
and leaves the state unchanged when the pool is empty. -/
theorem mine_empty_pool (H : PyVal → String) (ts : String) (bc : Blockchain) (prev : Block)
    (hlast : bc.chain.getLast? = some prev) (hempty : bc.current_tx = []) :
    Blockchain.mine H ts bc =
      some ({ chain := bc.chain ++
                [mkBlock H (prev.index + 1) ts (BlockData.txs []) prev.hash],
              current_tx := [] },
            mkBlock H (prev.index + 1) ts (BlockData.txs []) prev.hash)
    ∧ ∀ s : AppState, s.bc = bc → mineStep H ts s = s := by
  constructor
  · simp [Blockchain.mine, hlast, ← hempty]
  · intro s hs
    simp [mineStep, hs, hempty]

/-- Witness for C6 (amended) at the freshly initialized ledger. -/
theorem mine_empty_pool_witness :
    Blockchain.mine H0 "t1" (Blockchain.init H0 "t0") =
      some ({ chain := (Blockchain.init H0 "t0").chain ++
                [mkBlock H0 (gW.index + 1) "t1" (BlockData.txs []) gW.hash],
              current_tx := [] },
            mkBlock H0 (gW.index + 1) "t1" (BlockData.txs []) gW.hash)
    ∧ mineStep H0 "t1" s0val = s0val := by
  have h := mine_empty_pool H0 "t1" (Blockchain.init H0 "t0") gW (by decide) rfl
  exact ⟨h.1, h.2 s0val rfl⟩

/-- Claim C3 (verifyChain modelled from the spec, absent from the source):
on every reachable state — in particular after any sequence of successful
`mine` calls with no other mutation — `verifyChain` reports success; and
mutating the stored `data` of any committed block `i > 0` so that its
recomputed hash no longer matches its stored hash makes `verifyChain`
report failure at exactly index `i`. -/
theorem verifyChain_correct (H : PyVal → String) (s : AppState)
    (hreach : Reachable H s) :
    Blockchain.verifyChain H s.bc = none
    ∧ ∀ i b d, s.bc.chain.get? i = some b → 0 < i →
        b.hash ≠ recomputeHash H (setData b d) →
        Blockchain.verifyChain H
          { s.bc with chain := s.bc.chain.set i (setData b d) } = some i := by
  obtain ⟨⟨g, rest, hchain, hok⟩, _, _⟩ := reachable_good H s hreach
  constructor
  · rw [Blockchain.verifyChain, hchain]
    exact firstBad_none H 1 g rest hok
  · intro i b d hget hpos hbad
    cases i with
    | zero => omega
    | succ k =>
      rw [hchain] at hget ⊢
      have hget2 : rest.get? k = some b := by simpa using hget
      have h := firstBad_set H rest k 1 g b d hget2 hok hbad
      show firstBad H 1 g (rest.set k (setData b d)) = some (k + 1)
      rw [h, Nat.add_comm 1 k]

/-- Witness for C3 on a concrete two-block chain: verification succeeds, and
after overwriting the mined block's data it fails at index 1. -/
theorem verifyChain_correct_witness :
    Blockchain.verifyChain Hw s1w.bc = none
    ∧ Blockchain.verifyChain Hw
        { s1w.bc with chain := s1w.bc.chain.set 1 (setData blk1w (BlockData.txs [])) }
        = some 1 := by
  have h := verifyChain_correct Hw s1w
    (Reachable.mine _ "t1" (Reachable.save _ txC (Reachable.init "t0")))
  exact ⟨h.1, h.2 1 blk1w (BlockData.txs []) (by decide) (by decide) (by decide)⟩

/-- Claim C4: the stored hash of a constructed block is the digest of the
canonical encoding of exactly the four fields index, timestamp, data and
prev_hash — the encoding's key set is `{data, index, prev_hash, timestamp}`,
with no `hash` key — so any two blocks constructed from equal fields receive
equal stored hashes. -/
theorem block_hash_deterministic (H : PyVal → String) (i : Nat) (ts : String)
    (d : BlockData) (ph : String) :
    (mkBlock H i ts d ph).hash = H (canon (initDict i ts (dataToPy d) ph))
    ∧ pyKeys (canon (initDict i ts (dataToPy d) ph))
        = ["data", "index", "prev_hash", "timestamp"]
    ∧ ∀ i2 ts2 d2 ph2, i2 = i → ts2 = ts → d2 = d → ph2 = ph →
        (mkBlock H i2 ts2 d2 ph2).hash = (mkBlock H i ts d ph).hash := by
  refine ⟨rfl, ?_, ?_⟩
  · rw [initDict, pyKeys_canon_dict]
    show sortStr ["index", "timestamp", "data", "prev_hash"]
      = ["data", "index", "prev_hash", "timestamp"]
    decide
  · intro i2 ts2 d2 ph2 h1 h2 h3 h4
    subst h1; subst h2; subst h3; subst h4
    rfl

/-- Witness for C4 at a concrete block. -/
theorem block_hash_deterministic_witness :
    pyKeys (canon (initDict 1 "t" (dataToPy (BlockData.txs [])) "p"))
      = ["data", "index", "prev_hash", "timestamp"]
    ∧ (mkBlock H0 1 "t" (BlockData.txs []) "p").hash
        = (mkBlock H0 1 "t" (BlockData.txs []) "p").hash :=
  ⟨(block_hash_deterministic H0 1 "t" (BlockData.txs []) "p").2.1,
   (block_hash_deterministic H0 1 "t" (BlockData.txs []) "p").2.2
     1 "t" (BlockData.txs []) "p" rfl rfl rfl rfl⟩

/-- Claim C10: invoking `compute_hash` again on a constructed block
serializes the five-field `__dict__` (now including the stored `hash`), an
encoding different from the four-field one that produced the stored hash;
hence, unless the digest collides on these two distinct inputs, the
recomputed digest differs from the stored hash. -/
theorem compute_hash_post_differs (H : PyVal → String) (i : Nat) (ts : String)
    (d : BlockData) (ph : String) :
    canon (fullDict (mkBlock H i ts d ph)) ≠ canon (initDict i ts (dataToPy d) ph)
    ∧ ((H (canon (fullDict (mkBlock H i ts d ph)))
          = H (canon (initDict i ts (dataToPy d) ph)) →
        canon (fullDict (mkBlock H i ts d ph)) = canon (initDict i ts (dataToPy d) ph)) →
        computeHashPost H (mkBlock H i ts d ph) ≠ (mkBlock H i ts d ph).hash) := by
  have hne : canon (fullDict (mkBlock H i ts d ph))
      ≠ canon (initDict i ts (dataToPy d) ph) := by
    intro h
    have hk := congrArg pyKeys h
    rw [fullDict, initDict, pyKeys_canon_dict, pyKeys_canon_dict] at hk
    have hk2 : sortStr ["index", "timestamp", "data", "prev_hash", "hash"]
        = sortStr ["index", "timestamp", "data", "prev_hash"] := hk
    exact absurd hk2 (by decide)
  exact ⟨hne, fun hcoll heq => hne (hcoll heq)⟩

/-- Witness for C10 with a digest that separates the two encodings. -/
theorem compute_hash_post_differs_witness :
    computeHashPost Hlen (mkBlock Hlen 0 "t" BlockData.genesisMarker "0")
      ≠ (mkBlock Hlen 0 "t" BlockData.genesisMarker "0").hash :=
  (compute_hash_post_differs Hlen 0 "t" BlockData.genesisMarker "0").2
    (fun h => absurd h (by decide))

/-- Claim C7: for any record and any nonce, decrypting the (nonce, ciphertext)
hex pair produced by `encrypt` under the same key returns the original record
exactly. The AEAD and serialization primitives are external library code,
modelled as parameters constrained only by their documented round-trip
contracts. -/
theorem encrypt_decrypt_roundtrip {Rec : Type}
    (aeadEnc : List Nat → List Nat → List Nat → List Nat)
    (aeadDec : List Nat → List Nat → List Nat → Option (List Nat))
    (dumps : Rec → List Nat) (loads : List Nat → Option Rec)
    (key nonce : List Nat) (record : Rec)
    (hn : ∀ b ∈ nonce, b < 256)
    (hct : ∀ b ∈ aeadEnc key nonce (dumps record), b < 256)
    (haead : aeadDec key nonce (aeadEnc key nonce (dumps record)) = some (dumps record))
    (hser : loads (dumps record) = some record) :
    cipherDecrypt aeadDec loads key
      (cipherEncrypt aeadEnc dumps key nonce record).1
      (cipherEncrypt aeadEnc dumps key nonce record).2 = .ok record := by
  have hdata : ∀ cs : List Char, (String.mk cs).data = cs := fun _ => rfl
  simp [cipherEncrypt, cipherDecrypt, hdata,
    hexToBytes_bytesToHex nonce hn,
    hexToBytes_bytesToHex (aeadEnc key nonce (dumps record)) hct,
    haead, hser]

/-- Witness for C7 with a concrete record and trivial instantiations of the
external primitives satisfying their contracts. -/
theorem encrypt_decrypt_roundtrip_witness :
    cipherDecrypt (fun _ _ ct => some ct) (fun l => l.head?) []
      (cipherEncrypt (fun _ _ pt => pt) (fun n : Nat => [n]) [] [0, 1, 2] 7).1
      (cipherEncrypt (fun _ _ pt => pt) (fun n : Nat => [n]) [] [0, 1, 2] 7).2 = .ok 7 :=
  encrypt_decrypt_roundtrip (fun _ _ pt => pt) (fun _ _ ct => some ct)
    (fun n : Nat => [n]) (fun l => l.head?) [] [0, 1, 2] 7
    (by decide) (by decide) rfl rfl

/-- Claim C8: `decrypt` fails with `decodeError` on malformed hex (in either
argument); whenever the AEAD tag check rejects, it fails with the single,
cause-indistinguishable `authenticationError` value and never returns any
record; and in particular flipping any single bit of the nonce or ciphertext
bytes changes them (so the tampered pair reaches the tag check, whose
rejection of tampered input is the AES-GCM library contract, taken as a
hypothesis) and surfaces as `authenticationError`. -/
theorem decrypt_error_paths {Rec : Type}
    (aeadDec : List Nat → List Nat → List Nat → Option (List Nat))
    (loads : List Nat → Option Rec) (key : List Nat) :
    (∀ nonceHex ctHex : String, hexToBytes nonceHex.data = none →
        cipherDecrypt aeadDec loads key nonceHex ctHex = .error .decodeError)
    ∧ (∀ nonceHex ctHex : String, ∀ n, hexToBytes nonceHex.data = some n →
        hexToBytes ctHex.data = none →
        cipherDecrypt aeadDec loads key nonceHex ctHex = .error .decodeError)
    ∧ (∀ nonceHex ctHex : String, ∀ n c, hexToBytes nonceHex.data = some n →
        hexToBytes ctHex.data = some c → aeadDec key n c = none →
        cipherDecrypt aeadDec loads key nonceHex ctHex = .error .authenticationError
        ∧ ∀ r, cipherDecrypt aeadDec loads key nonceHex ctHex ≠ .ok r)
    ∧ (∀ (nonce ct : List Nat) (j k : Nat),
        (∀ b ∈ nonce, b < 256) → (∀ b ∈ ct, b < 256) → j < nonce.length → k < 8 →
        aeadDec key (flipBit j k nonce) ct = none →
        flipBit j k nonce ≠ nonce
        ∧ cipherDecrypt aeadDec loads key (String.mk (bytesToHex (flipBit j k nonce)))
            (String.mk (bytesToHex ct)) = .error .authenticationError)
    ∧ (∀ (nonce ct : List Nat) (j k : Nat),
        (∀ b ∈ nonce, b < 256) → (∀ b ∈ ct, b < 256) → j < ct.length → k < 8 →
        aeadDec key nonce (flipBit j k ct) = none →
        flipBit j k ct ≠ ct
        ∧ cipherDecrypt aeadDec loads key (String.mk (bytesToHex nonce))
            (String.mk (bytesToHex (flipBit j k ct))) = .error .authenticationError) := by
  have hdata : ∀ cs : List Char, (String.mk cs).data = cs := fun _ => rfl
  refine ⟨?_, ?_, ?_, ?_, ?_⟩
  · intro nonceHex ctHex h
    simp [cipherDecrypt, h]
  · intro nonceHex ctHex n hn hc
    simp [cipherDecrypt, hn, hc]
  · intro nonceHex ctHex n c hn hc hdec
    constructor
    · simp [cipherDecrypt, hn, hc, hdec]
    · intro r
      simp [cipherDecrypt, hn, hc, hdec]
  · intro nonce ct j k hvn hvc hj hk hdec
    refine ⟨flipBit_ne j k nonce hj, ?_⟩
    simp [cipherDecrypt, hdata,
      hexToBytes_bytesToHex (flipBit j k nonce) (flipBit_valid j k nonce hk hvn),
      hexToBytes_bytesToHex ct hvc, hdec]
  · intro nonce ct j k hvn hvc hj hk hdec
    refine ⟨flipBit_ne j k ct hj, ?_⟩
    simp [cipherDecrypt, hdata,
      hexToBytes_bytesToHex nonce hvn,
      hexToBytes_bytesToHex (flipBit j k ct) (flipBit_valid j k ct hk hvc), hdec]

/-- Witness for C8: a malformed-hex decode failure and a concrete
one-bit-flip authentication failure, using an AEAD instance that rejects
everything. -/
theorem decrypt_error_paths_witness :
    cipherDecrypt (fun _ _ _ => (none : Option (List Nat))) (fun l => some l) []
      (String.mk ['z', 'z']) (String.mk ['0', '0']) = .error .decodeError
    ∧ cipherDecrypt (fun _ _ _ => (none : Option (List Nat))) (fun l => some l) []
        (String.mk (bytesToHex (flipBit 0 0 [1, 2]))) (String.mk (bytesToHex [3]))
        = .error .authenticationError
    ∧ flipBit 0 0 [1, 2] ≠ [1, 2] := by
  have h := decrypt_error_paths (fun _ _ _ => (none : Option (List Nat)))
    (fun l => some l) []
  have h4 := h.2.2.2.1 [1, 2] [3] 0 0 (by decide) (by decide) (by decide) (by decide) rfl
  exact ⟨h.1 (String.mk ['z', 'z']) (String.mk ['0', '0']) (by decide), h4.2, h4.1⟩

/-- Counterexample for C9: with `POLICE_KEY_HEX` absent, `AESCipher.__init__`
does not surface any error — it silently succeeds with the hardcoded demo
fallback key. -/
theorem cipher_fallback_cex : cipherInit none = some fallbackKeyBytes := by decide

/-- Amended C9: when the `POLICE_KEY_HEX` environment variable is absent (or
empty, which is falsy in Python), construction silently falls back to the
fixed, hardcoded 32-byte demo key and succeeds; no error of any kind is
raised for a missing key, and the fallback is the silent default rather than
an explicit opt-in. -/
theorem cipher_silent_fallback :
    cipherInit none = some fallbackKeyBytes
    ∧ cipherInit (some "") = some fallbackKeyBytes
    ∧ fallbackKeyBytes.length = 32 := by decide
